import Mathlib

/-!
Verification of the brotli meta-block decoder bundled with woff2
(src/brotli/dec/decode.c), as a shallow embedding in Lean 4.

The embedding follows the C source function by function:
* a bit reader over an infinite LSB-first bit stream (`BitReader`, `readBits`),
* the stream-header size field (`decodeSize`, from `DecodeSize`),
* the decoded-size bit count (`inputSizeBits`, from the loop at the top of
  `BrotliDecompress`),
* window-bit decoding (`decodeWindowBits`, `decodeWindowSetup`),
* the meta-block length header (`decodeMetaBlockLength`),
* the short-distance-code translation (`translateShortCodes`) and the
  distance ring update (`updateDistRb`),
* the backward-reference guard (`backrefOk`),
* block-type switching (`decodeBlockType`),
* the context-map fill loop (`contextMapLoop`),
* simple Huffman code-length assembly (`simpleCodeLengths`),
* the per-meta-block command loop (`commandLoop`) and the surrounding
  meta-block loop with its final ring flush (`metaBlockLoop`, `totalOutput`).

Huffman symbol decoding is abstracted: wherever the C code reads a decoded
symbol from a Huffman tree, the model consumes the symbol from an explicit
list, so that every control path of the C code is represented while the
tree machinery itself stays out of scope.
-/

namespace Brotli

/-- A bit reader over an infinite stream of bits; `pos` is the index of the
next unread bit.  Bits are consumed LSB-first within each byte, which the
model realises by reading bits in stream order and assembling values
least-significant-first. -/
structure BitReader where
  bits : Nat → Bool
  pos : Nat

/-- Model of `BrotliReadBits(br, n)`: read `n` bits, least-significant first. -/
def readBits : BitReader → Nat → Nat × BitReader
  | br, 0 => (0, br)
  | br, n + 1 =>
    let b := if br.bits br.pos then 1 else 0
    let r := readBits ⟨br.bits, br.pos + 1⟩ n
    (b + 2 * r.1, r.2)

theorem readBits_bits (br : BitReader) (n : Nat) : (readBits br n).2.bits = br.bits := by
  induction n generalizing br with
  | zero => rfl
  | succ n ih => simpa [readBits] using ih ⟨br.bits, br.pos + 1⟩

theorem readBits_pos (br : BitReader) (n : Nat) : (readBits br n).2.pos = br.pos + n := by
  induction n generalizing br with
  | zero => rfl
  | succ n ih =>
    simp only [readBits]
    rw [ih ⟨br.bits, br.pos + 1⟩]
    show br.pos + 1 + n = br.pos + (n + 1)
    omega

theorem readBits_lt (br : BitReader) (n : Nat) : (readBits br n).1 < 2 ^ n := by
  induction n generalizing br with
  | zero => simp [readBits]
  | succ n ih =>
    simp only [readBits]
    have h := ih ⟨br.bits, br.pos + 1⟩
    have : (if br.bits br.pos then 1 else 0) ≤ 1 := by split <;> omega
    have h2 : 2 ^ (n + 1) = 2 * 2 ^ n := by ring
    omega

/-- The byte-reading loop of `DecodeSize`: `len |= BrotliReadBits(br, 8) << (i * 8)`
for `i` from the current chunk index up through `size_bytes - 1`. -/
def decodeSizeBytes : Nat → Nat → Nat → BitReader → Nat × BitReader
  | 0, _, len, br => (len, br)
  | k + 1, i, len, br =>
    let r := readBits br 8
    decodeSizeBytes k (i + 1) (len ||| (r.1 <<< (i * 8))) r.2

/-- Model of `DecodeSize`: read 3 bits `size_bytes`; if zero return `-1` (size absent),
else read `size_bytes` bytes little-endian. -/
def decodeSize (br : BitReader) : Int × BitReader :=
  let r := readBits br 3
  if r.1 = 0 then (-1, r.2)
  else
    let l := decodeSizeBytes r.1 0 0 r.2
    (Int.ofNat l.1, l.2)

/-- The head of `BrotliDecompress`: after `DecodeSize`, a `decoded_size` of
zero returns success immediately; otherwise the rest of the function runs
(abstracted here as the parameter `rest`).  The result triple is
(success flag, output bytes, final bit position). -/
def brotliTop (rest : Int → BitReader → Bool × List Nat × Nat) (br : BitReader) :
    Bool × List Nat × Nat :=
  let r := decodeSize br
  if r.1 = 0 then (true, [], r.2.pos)
  else rest r.1 r.2

/-- C10: if the stream header advertises `decoded_size == 0`, `BrotliDecompress`
returns success immediately after `DecodeSize`: no output is produced, no
further bits are consumed (the continuation `rest` is never consulted), and
the final bit position is exactly the position after `DecodeSize`. -/
theorem decodeSize_zero_early_success
    (rest : Int → BitReader → Bool × List Nat × Nat) (br : BitReader)
    (h : (decodeSize br).1 = 0) :
    brotliTop rest br = (true, [], (decodeSize br).2.pos) := by
  simp [brotliTop, h]

/-- Witness for `decodeSize_zero_early_success`: the stream whose bits are
`1` at position 0 and `0` everywhere else encodes `size_bytes = 1` followed
by the byte `0`, i.e. `decoded_size = 0`; the decoder returns success with
empty output having consumed exactly the 11 header bits. -/
theorem decodeSize_zero_early_success_witness :
    (decodeSize ⟨fun i => i == 0, 0⟩).1 = 0 ∧
    brotliTop (fun _ _ => (false, [], 0)) ⟨fun i => i == 0, 0⟩ = (true, [], 11) := by
  refine ⟨by decide, ?_⟩
  have h := decodeSize_zero_early_success (fun _ _ => (false, [], 0)) ⟨fun i => i == 0, 0⟩
    (by decide)
  rw [h]
  rfl

/-- Fuel-driven unfolding of the loop `while (n) { ++input_size_bits; n >>= 1; }`
from the head of `BrotliDecompress`.  The loop runs `bitLen n ≤ n` times, so
fuel `n` always suffices. -/
def bitLenAux : Nat → Nat → Nat
  | _, 0 => 0
  | 0, _ + 1 => 0
  | fuel + 1, n + 1 => bitLenAux fuel ((n + 1) / 2) + 1

/-- The number of halvings needed to take `n` to 0, i.e. the bit length of `n`. -/
def bitLen (n : Nat) : Nat := bitLenAux n n

/-- The value `n &~ (n - 1)` evaluated in 64-bit `size_t` arithmetic: for `1 ≤ n ≤ 2^64`
the complement `~(n - 1)` equals `2^64 - n`. -/
def cLowBit (n : Nat) : Nat := n &&& (2 ^ 64 - n)

/-- The count `input_size_bits` as computed for a known positive `decoded_size`:
start at `-1` when `n == (n &~ (n-1))` (a power of two), else `0`, then add
one per halving.  This is `ceil(log2 n)` for `n ≥ 1`. -/
def inputSizeBits (n : Nat) : Int :=
  (if n = cLowBit n then -1 else 0) + (bitLen n : Int)

theorem bitLenAux_le_iff (fuel : Nat) :
    ∀ k n, n ≤ fuel → (bitLenAux fuel n ≤ k ↔ n < 2 ^ k) := by
  induction fuel with
  | zero =>
    intro k n hn
    have : n = 0 := by omega
    subst this
    simp [bitLenAux, Nat.pos_pow_of_pos]
  | succ fuel ih =>
    intro k n hn
    match n with
    | 0 => simp [bitLenAux, Nat.pos_pow_of_pos]
    | m + 1 =>
      show bitLenAux fuel ((m + 1) / 2) + 1 ≤ k ↔ m + 1 < 2 ^ k
      match k with
      | 0 =>
        constructor
        · omega
        · intro hlt
          exact absurd hlt (by omega)
      | k + 1 =>
        rw [Nat.add_le_add_iff_right, ih k ((m + 1) / 2) (by omega),
          Nat.div_lt_iff_lt_mul (by omega), pow_succ]

theorem bitLen_le_iff (k n : Nat) : bitLen n ≤ k ↔ n < 2 ^ k :=
  bitLenAux_le_iff n k n (Nat.le_refl n)

theorem inputSizeBits_gt16_iff (n : Nat) (h1 : 1 ≤ n) :
    16 < inputSizeBits n ↔ 65536 < n := by
  by_cases hA : n ≤ 65535
  · have hb : bitLen n ≤ 16 := (bitLen_le_iff 16 n).2 (by omega)
    have hle : inputSizeBits n ≤ 16 := by
      unfold inputSizeBits
      split <;> omega
    omega
  · by_cases hB : n = 65536
    · subst hB
      have : inputSizeBits 65536 = 16 := by decide
      omega
    · have hb17 : 16 < bitLen n := by
        by_contra hc
        have := (bitLen_le_iff 16 n).1 (by omega)
        omega
      by_cases hC : n ≤ 131071
      · have hne : ¬ (n = cLowBit n) := by
          intro he
          have h16 : Nat.testBit n 16 = true := by
            rw [Nat.testBit_to_div_mod, decide_eq_true_eq]
            omega
          have hs : Nat.testBit (2 ^ 64 - n) 16 = false := by
            have hn : n - 1 < 2 ^ 64 := by omega
            have hrw : (2 : Nat) ^ 64 - n = 2 ^ 64 - ((n - 1) + 1) := by omega
            rw [hrw, Nat.testBit_two_pow_sub_succ hn]
            have hprev : Nat.testBit (n - 1) 16 = true := by
              rw [Nat.testBit_to_div_mod, decide_eq_true_eq]
              omega
            simp [hprev]
          have h2 : Nat.testBit (cLowBit n) 16 =
              (Nat.testBit n 16 && Nat.testBit (2 ^ 64 - n) 16) := by
            unfold cLowBit
            exact Nat.testBit_land n (2 ^ 64 - n) 16
          rw [← he, h16, hs] at h2
          exact absurd h2 (by decide)
        have : inputSizeBits n = (bitLen n : Int) := by
          unfold inputSizeBits
          rw [if_neg hne]
          omega
        omega
      · have hbig : ¬ (bitLen n ≤ 17) := by
          intro hle
          have := (bitLen_le_iff 17 n).1 hle
          omega
        have : 17 ≤ inputSizeBits n := by
          unfold inputSizeBits
          split <;> omega
        omega

/-- Window-bit decoding at the head of `BrotliDecompress`: when
`decoded_size < 0 || input_size_bits > 16` a flag bit is read; if it is 1,
`window_bits = 17 + read(3)`, else 16; otherwise no bit is read and
`window_bits = 16`. -/
def decodeWindowBits (decodedSize isb : Int) (br : BitReader) : Nat × BitReader :=
  if decodedSize < 0 ∨ 16 < isb then
    if (readBits br 1).1 = 1 then
      (17 + (readBits (readBits br 1).2 3).1, (readBits (readBits br 1).2 3).2)
    else (16, (readBits br 1).2)
  else (16, br)

/-- Window setup: window bits together with
`max_backward_distance = (1 << window_bits) - 16` and the advanced reader. -/
def decodeWindowSetup (decodedSize isb : Int) (br : BitReader) : Nat × Nat × BitReader :=
  ((decodeWindowBits decodedSize isb br).1,
    (1 <<< (decodeWindowBits decodedSize isb br).1) - 16,
    (decodeWindowBits decodedSize isb br).2)

/-- C6 counterexample: for `decoded_size = 65536`, whose bit length
(`bitLen`) is 17, the claim says a window-bits flag bit is read; the code
computes `input_size_bits = 16` (the power-of-two adjustment) and reads no
bit at all, leaving `window_bits = 16`.  With an all-ones bit stream any
read would be visible both in the position and in the result. -/
theorem windowBits_no_read_at_65536 :
    bitLen 65536 = 17 ∧
    (decodeWindowBits 65536 (inputSizeBits 65536) ⟨fun _ => true, 0⟩).2.pos = 0 ∧
    (decodeWindowBits 65536 (inputSizeBits 65536) ⟨fun _ => true, 0⟩).1 = 16 := by
  refine ⟨by decide, by decide, by decide⟩

/-- C6 (amended): a window-bits flag bit is read if and only if
`decoded_size` is absent (negative) or `decoded_size > 65536` — i.e. the
condition in the code is `ceil(log2 decoded_size) > 16`, not bit length > 16,
so at `decoded_size = 65536` no bit is read.  When the flag bit is 1,
`window_bits = 17 + read(3)` lies in 17..24 and 4 bits are consumed; in
every other case `window_bits = 16`.  Always
`max_backward = (1 << window_bits) - 16`. -/
theorem decodeWindowSetup_spec (decodedSize : Int) (br : BitReader)
    (h : decodedSize ≠ 0) :
    ((decodeWindowSetup decodedSize
        (if 0 < decodedSize then inputSizeBits decodedSize.toNat else 0) br).2.2.pos = br.pos
      ↔ (0 < decodedSize ∧ decodedSize ≤ 65536)) ∧
    (0 < decodedSize → decodedSize ≤ 65536 →
      (decodeWindowSetup decodedSize
        (if 0 < decodedSize then inputSizeBits decodedSize.toNat else 0) br).1 = 16) ∧
    ((decodedSize < 0 ∨ 65536 < decodedSize) →
      ((readBits br 1).1 = 1 →
        (decodeWindowSetup decodedSize
          (if 0 < decodedSize then inputSizeBits decodedSize.toNat else 0) br).1 =
            17 + (readBits (readBits br 1).2 3).1 ∧
        17 ≤ (decodeWindowSetup decodedSize
          (if 0 < decodedSize then inputSizeBits decodedSize.toNat else 0) br).1 ∧
        (decodeWindowSetup decodedSize
          (if 0 < decodedSize then inputSizeBits decodedSize.toNat else 0) br).1 ≤ 24 ∧
        (decodeWindowSetup decodedSize
          (if 0 < decodedSize then inputSizeBits decodedSize.toNat else 0) br).2.2.pos =
            br.pos + 4) ∧
      ((readBits br 1).1 = 0 →
        (decodeWindowSetup decodedSize
          (if 0 < decodedSize then inputSizeBits decodedSize.toNat else 0) br).1 = 16 ∧
        (decodeWindowSetup decodedSize
          (if 0 < decodedSize then inputSizeBits decodedSize.toNat else 0) br).2.2.pos =
            br.pos + 1)) ∧
    (decodeWindowSetup decodedSize
      (if 0 < decodedSize then inputSizeBits decodedSize.toNat else 0) br).2.1 =
      (1 <<< (decodeWindowSetup decodedSize
        (if 0 < decodedSize then inputSizeBits decodedSize.toNat else 0) br).1) - 16 := by
  have hcond : (decodedSize < 0 ∨
      16 < (if 0 < decodedSize then inputSizeBits decodedSize.toNat else 0)) ↔
      (decodedSize < 0 ∨ 65536 < decodedSize) := by
    by_cases hp : 0 < decodedSize
    · rw [if_pos hp]
      have h1 : 1 ≤ decodedSize.toNat := by omega
      have := inputSizeBits_gt16_iff decodedSize.toNat h1
      constructor
      · rintro (hlt | hgt)
        · omega
        · exact Or.inr (by omega)
      · rintro (hlt | hgt)
        · omega
        · exact Or.inr (by rw [this]; omega)
    · rw [if_neg hp]
      omega
  by_cases hread : decodedSize < 0 ∨ 65536 < decodedSize
  · have hc : (decodedSize < 0 ∨
        16 < (if 0 < decodedSize then inputSizeBits decodedSize.toNat else 0)) :=
      hcond.2 hread
    by_cases hbit : (readBits br 1).1 = 1
    · have hu : decodeWindowBits decodedSize
          (if 0 < decodedSize then inputSizeBits decodedSize.toNat else 0) br =
          (17 + (readBits (readBits br 1).2 3).1, (readBits (readBits br 1).2 3).2) := by
        unfold decodeWindowBits
        rw [if_pos hc, if_pos hbit]
      have h3 := readBits_lt (readBits br 1).2 3
      have hp3 := readBits_pos (readBits br 1).2 3
      have hp1 := readBits_pos br 1
      simp only [decodeWindowSetup, hu]
      refine ⟨?_, ?_, ?_, trivial⟩
      · constructor
        · intro hpos
          omega
        · intro hle
          omega
      · intro hgt hle
        omega
      · intro _
        refine ⟨fun _ => ⟨trivial, by omega, by omega, by omega⟩, fun h0 => by omega⟩
    · have hu : decodeWindowBits decodedSize
          (if 0 < decodedSize then inputSizeBits decodedSize.toNat else 0) br =
          (16, (readBits br 1).2) := by
        unfold decodeWindowBits
        rw [if_pos hc, if_neg hbit]
      have hp1 := readBits_pos br 1
      simp only [decodeWindowSetup, hu]
      refine ⟨?_, ?_, ?_, trivial⟩
      · constructor
        · intro hpos
          omega
        · intro hle
          omega
      · intro hgt hle
        omega
      · intro _
        exact ⟨fun hb => absurd hb hbit, fun _ => ⟨trivial, by omega⟩⟩
  · have hc : ¬ (decodedSize < 0 ∨
        16 < (if 0 < decodedSize then inputSizeBits decodedSize.toNat else 0)) := by
      intro hx
      exact hread (hcond.1 hx)
    have hu : decodeWindowBits decodedSize
        (if 0 < decodedSize then inputSizeBits decodedSize.toNat else 0) br = (16, br) := by
      unfold decodeWindowBits
      rw [if_neg hc]
    simp only [decodeWindowSetup, hu]
    refine ⟨?_, fun _ _ => trivial, fun hx => absurd hx hread, trivial⟩
    constructor
    · intro _
      omega
    · intro _
      trivial

/-- Witness for `decodeWindowSetup_spec` at the absent size `decoded_size = -1`
with an all-zero bit stream: the flag bit (0) is read and `window_bits = 16`. -/
theorem decodeWindowSetup_spec_witness :
    ((-1 : Int) ≠ 0) ∧
    (((decodeWindowSetup (-1)
        (if 0 < (-1 : Int) then inputSizeBits (Int.toNat (-1)) else 0)
        ⟨fun _ => false, 0⟩).2.2.pos = (0 : Nat)
      ↔ (0 < (-1 : Int) ∧ (-1 : Int) ≤ 65536)) ∧
    (0 < (-1 : Int) → (-1 : Int) ≤ 65536 →
      (decodeWindowSetup (-1)
        (if 0 < (-1 : Int) then inputSizeBits (Int.toNat (-1)) else 0)
        ⟨fun _ => false, 0⟩).1 = 16) ∧
    (((-1 : Int) < 0 ∨ 65536 < (-1 : Int)) →
      ((readBits ⟨fun _ => false, 0⟩ 1).1 = 1 →
        (decodeWindowSetup (-1)
          (if 0 < (-1 : Int) then inputSizeBits (Int.toNat (-1)) else 0)
          ⟨fun _ => false, 0⟩).1 =
            17 + (readBits (readBits ⟨fun _ => false, 0⟩ 1).2 3).1 ∧
        17 ≤ (decodeWindowSetup (-1)
          (if 0 < (-1 : Int) then inputSizeBits (Int.toNat (-1)) else 0)
          ⟨fun _ => false, 0⟩).1 ∧
        (decodeWindowSetup (-1)
          (if 0 < (-1 : Int) then inputSizeBits (Int.toNat (-1)) else 0)
          ⟨fun _ => false, 0⟩).1 ≤ 24 ∧
        (decodeWindowSetup (-1)
          (if 0 < (-1 : Int) then inputSizeBits (Int.toNat (-1)) else 0)
          ⟨fun _ => false, 0⟩).2.2.pos = (0 : Nat) + 4) ∧
      ((readBits ⟨fun _ => false, 0⟩ 1).1 = 0 →
        (decodeWindowSetup (-1)
          (if 0 < (-1 : Int) then inputSizeBits (Int.toNat (-1)) else 0)
          ⟨fun _ => false, 0⟩).1 = 16 ∧
        (decodeWindowSetup (-1)
          (if 0 < (-1 : Int) then inputSizeBits (Int.toNat (-1)) else 0)
          ⟨fun _ => false, 0⟩).2.2.pos = (0 : Nat) + 1)) ∧
    (decodeWindowSetup (-1)
      (if 0 < (-1 : Int) then inputSizeBits (Int.toNat (-1)) else 0)
      ⟨fun _ => false, 0⟩).2.1 =
      (1 <<< (decodeWindowSetup (-1)
        (if 0 < (-1 : Int) then inputSizeBits (Int.toNat (-1)) else 0)
        ⟨fun _ => false, 0⟩).1) - 16) :=
  ⟨by decide, decodeWindowSetup_spec (-1) ⟨fun _ => false, 0⟩ (by decide)⟩

/-- The nibble loop of `DecodeMetaBlockLength` for an unknown `decoded_size`:
`*meta_block_length |= BrotliReadBits(br, 4) << (i * 4)` for
`i < size_nibbles`. -/
def mblNibbleLoop : Nat → Nat → Nat → BitReader → Nat × BitReader
  | 0, _, len, br => (len, br)
  | k + 1, i, len, br =>
    let r := readBits br 4
    mblNibbleLoop k (i + 1) (len ||| (r.1 <<< (i * 4))) r.2

/-- Fuel-driven unfolding of the chunk loop of `DecodeMetaBlockLength` for a
known `decoded_size`:

`while (input_size_bits > 0) { *len |= read(8) << shift; input_size_bits -= 8; shift += 8; }`

The loop runs at most `input_size_bits` times, so fuel `isb.toNat` always
suffices.  Returns the final `input_size_bits`, `shift`, the accumulated
length and the advanced reader. -/
def mblChunkAux : Nat → Int → Nat → Nat → BitReader → Int × Nat × Nat × BitReader
  | 0, isb, shift, len, br => (isb, shift, len, br)
  | fuel + 1, isb, shift, len, br =>
    if 0 < isb then
      mblChunkAux fuel (isb - 8) (shift + 8)
        (len ||| ((readBits br 8).1 <<< shift)) (readBits br 8).2
    else (isb, shift, len, br)

def mblChunkLoop (isb : Int) (shift len : Nat) (br : BitReader) :
    Int × Nat × Nat × BitReader :=
  mblChunkAux isb.toNat isb shift len br

/-- Model of `DecodeMetaBlockLength`: read the `input_end` bit, then the meta-block
length by cases on whether a `decoded_size` is known (`inputSize < 0` means
unknown).  For a known size with `input_end = 0` the 8-bit chunk loop runs,
followed by the (unreachable) remainder read of `input_size_bits` bits.
Returns `(meta_block_length, input_end, reader)`. -/
def decodeMetaBlockLength (isb : Int) (pos : Nat) (inputSize : Int) (br : BitReader) :
    Nat × Bool × BitReader :=
  let r := readBits br 1
  let inputEnd := r.1 = 1
  if inputSize < 0 then
    if inputEnd then (0, true, r.2)
    else
      let rn := readBits r.2 3
      let l := mblNibbleLoop rn.1 0 0 rn.2
      (l.1 + 1, false, l.2)
  else
    if inputEnd then (inputSize.toNat - pos, true, r.2)
    else
      let l := mblChunkLoop isb 0 0 r.2
      let lfin :=
        if 0 < l.1 then
          let rr := readBits l.2.2.2 l.1.toNat
          (l.2.2.1 ||| (rr.1 <<< l.2.1), rr.2)
        else (l.2.2.1, l.2.2.2)
      (lfin.1 + 1, false, lfin.2)

/-- C5 (code bug): with a known `decoded_size = 2` the claim prescribes a
stored length field of `ceil(log2 2) = 1` bit, so after the `input_end` bit
the reader should stand at position 2.  The chunk loop of the code
(`while (input_size_bits > 0)` reading 8 bits per iteration) instead
consumes a full byte — its remainder-read branch is dead because the loop
only exits once `input_size_bits ≤ 0` — leaving the reader at position 9.
The `+ 1` is applied as claimed, so `meta_len = 1` on an all-zero stream. -/
theorem decodeMetaBlockLength_reads_full_bytes :
    inputSizeBits 2 = 1 ∧
    (decodeMetaBlockLength (inputSizeBits 2) 0 2 ⟨fun _ => false, 0⟩).2.2.pos = 9 ∧
    (decodeMetaBlockLength (inputSizeBits 2) 0 2 ⟨fun _ => false, 0⟩).1 = 1 := by
  refine ⟨by decide, by decide, by decide⟩

/-- Table `kDistanceShortCodeIndexOffset` from decode.c. -/
def kDistanceShortCodeIndexOffset (c : Nat) : Nat :=
  [3, 2, 1, 0, 3, 3, 3, 3, 3, 3, 2, 2, 2, 2, 2, 2].getD c 0

/-- Table `kDistanceShortCodeValueOffset` from decode.c. -/
def kDistanceShortCodeValueOffset (c : Nat) : Int :=
  [0, 0, 0, 0, -1, 1, -2, 2, -3, 3, -1, 1, -2, 2, -3, 3].getD c 0

/-- Model of `TranslateShortCodes`: a distance code below 16 is resolved through the
4-entry distance ring (`index += idx_offset; index &= 3;` then add the value
offset); otherwise the distance is `code - 16 + 1`. -/
def translateShortCodes (code : Nat) (rb : Nat → Int) (idx : Nat) : Int :=
  if code < 16 then
    rb ((idx + kDistanceShortCodeIndexOffset code) &&& 3) +
      kDistanceShortCodeValueOffset code
  else
    Int.ofNat (code - 16 + 1)

/-- The initial distance ring `int dist_rb[4] = { 4, 11, 15, 16 }`. -/
def initDistRb (j : Nat) : Int := [4, 11, 15, 16].getD j 0

/-- The distance-ring update of the command loop:
`if (distance_code > 0) { dist_rb[dist_rb_idx & 3] = distance; ++dist_rb_idx; }`. -/
def updateDistRb (distanceCode : Nat) (distance : Int) (rb : Nat → Int) (idx : Nat) :
    (Nat → Int) × Nat :=
  if 0 < distanceCode then
    (fun j => if j = idx &&& 3 then distance else rb j, idx + 1)
  else (rb, idx)

/-- The value `(size_t)distance` — the C cast of the 32-bit signed distance to 64-bit
`size_t` (sign extension then reinterpretation, i.e. reduction mod `2^64`). -/
def sizeTCast (d : Int) : Nat := (d % (2 ^ 64 : Int)).toNat

/-- The backward-reference guard of the command loop: with
`max_distance = min(max_backward_distance, pos)`, the copy proceeds only when
not `((size_t)distance > max_distance)`. -/
def backrefOk (distance : Int) (pos maxBackward : Nat) : Bool :=
  ! decide (min maxBackward pos < sizeTCast distance)

/-- C8: the distance ring is mutated only by commands with resolved
`distance_code > 0` (a `distance_code` of 0 — short code 0 — leaves ring and
index untouched); after any such update the slot `dist_rb[(dist_rb_idx-1) & 3]`
holds exactly the distance just used, and the initial ring is `[4, 11, 15, 16]`. -/
theorem distRb_discipline (dcode : Nat) (dist : Int) (rb : Nat → Int) (idx : Nat) :
    (dcode = 0 → updateDistRb dcode dist rb idx = (rb, idx)) ∧
    (0 < dcode →
      (updateDistRb dcode dist rb idx).1 (((updateDistRb dcode dist rb idx).2 - 1) &&& 3) =
        dist ∧
      (updateDistRb dcode dist rb idx).2 = idx + 1) ∧
    (initDistRb 0 = 4 ∧ initDistRb 1 = 11 ∧ initDistRb 2 = 15 ∧ initDistRb 3 = 16) := by
  refine ⟨?_, ?_, by decide, by decide, by decide, by decide⟩
  · intro h0
    subst h0
    simp [updateDistRb]
  · intro hpos
    rw [updateDistRb, if_pos hpos]
    exact ⟨by simp, rfl⟩

/-- Witness for `distRb_discipline` at `distance_code = 5`, distance 7,
the initial ring and index 0. -/
theorem distRb_discipline_witness :
    0 < 5 ∧
    (updateDistRb 5 7 initDistRb 0).1 (((updateDistRb 5 7 initDistRb 0).2 - 1) &&& 3) = 7 :=
  ⟨by decide, ((distRb_discipline 5 7 initDistRb 0).2.1 (by decide)).1⟩

/-- C1 (amended): the backward-reference guard admits exactly the resolved
distances `d` with `0 ≤ d` and `d ≤ min(max_backward, pos)` — every negative
resolved distance is rejected (the `size_t` cast makes it enormous), but a
resolved distance of exactly 0 passes the guard and the copy is performed.
The bounds cover every value a 32-bit `int` distance can take. -/
theorem backrefOk_iff_nonneg_le (d : Int) (pos maxBackward : Nat)
    (hmb : maxBackward ≤ 2 ^ 24) (hd1 : -(2 ^ 63) ≤ d) (hd2 : d < 2 ^ 63) :
    backrefOk d pos maxBackward = true ↔ (0 ≤ d ∧ d.toNat ≤ min maxBackward pos) := by
  have h64 : (2 : Int) ^ 64 = 18446744073709551616 := by norm_num
  have h63 : (2 : Int) ^ 63 = 9223372036854775808 := by norm_num
  rw [h63] at hd1 hd2
  have hmin : min maxBackward pos ≤ 2 ^ 24 := by omega
  unfold backrefOk sizeTCast
  rw [h64]
  rcases le_or_lt 0 d with hpos | hneg
  · have hmod : d % 18446744073709551616 = d := by omega
    rw [hmod]
    simp only [Bool.not_eq_true', decide_eq_false_iff_not, Nat.not_lt]
    omega
  · have hmod : d % 18446744073709551616 = d + 18446744073709551616 := by omega
    rw [hmod]
    simp only [Bool.not_eq_true', decide_eq_false_iff_not, Nat.not_lt]
    constructor
    · intro hle
      exfalso
      have : (2 : Nat) ^ 24 < (d + 18446744073709551616).toNat := by omega
      omega
    · intro hc
      omega

/-- Witness for `backrefOk_iff_nonneg_le` at `d = 3`, `pos = 5`,
`max_backward = 65520`. -/
theorem backrefOk_iff_nonneg_le_witness :
    65520 ≤ 2 ^ 24 ∧ -(2 ^ 63) ≤ (3 : Int) ∧ (3 : Int) < 2 ^ 63 ∧
    (backrefOk 3 5 65520 = true ↔ (0 ≤ (3 : Int) ∧ (3 : Int).toNat ≤ min 65520 5)) :=
  ⟨by norm_num, by norm_num, by norm_num,
    backrefOk_iff_nonneg_le 3 5 65520 (by norm_num) (by norm_num) (by norm_num)⟩

/-- Per-category block-type switch state: the 2-entry ring of prior types
and the switch counter (`block_type_rb` slice and `block_type_rb_index`). -/
structure BlockTypeState where
  rb : Nat → Nat
  idx : Nat

/-- The initial per-category slice of `block_type_rb[6] = {0,1,0,1,0,1}`. -/
def initBlockTypeRb (j : Nat) : Nat := if j = 1 then 1 else 0

/-- The index `idx - 1` in 64-bit `size_t` arithmetic (wraps at zero). -/
def cSub1 (idx : Nat) : Nat := (idx + (2 ^ 64 - 1)) % 2 ^ 64

/-- Model of `DecodeBlockType` for one category, given the decoded `type_code`:
`type_code == 0` re-reads `rb[idx & 1]`, `type_code == 1` takes
`rb[(idx - 1) & 1] + 1` (with NO modular reduction), otherwise
`type_code - 2`; then the ring is written at `idx & 1` and `idx` advances.
Returns the new `block_type` and the updated state. -/
def decodeBlockType (typeCode : Nat) (s : BlockTypeState) : Nat × BlockTypeState :=
  let blockType :=
    if typeCode = 0 then s.rb (s.idx &&& 1)
    else if typeCode = 1 then s.rb (cSub1 s.idx &&& 1) + 1
    else typeCode - 2
  (blockType, ⟨fun j => if j = s.idx &&& 1 then blockType else s.rb j, s.idx + 1⟩)

/-- C3 (code bug): `type_code == 1` performs no reduction modulo
`num_types[k]`.  From the initial reachable state (ring `[0,1]`, index 1 as
set by the meta-block header) with `num_types[k] = 2`, two consecutive
switches that both decode `type_code = 1` yield block types 1 and then 2 —
and `2 < 2` fails, so the resulting type is out of range and is subsequently
used to index the per-type tree arrays. -/
theorem decodeBlockType_no_mod_overflow :
    (decodeBlockType 1 ⟨initBlockTypeRb, 1⟩).1 = 1 ∧
    (decodeBlockType 1 (decodeBlockType 1 ⟨initBlockTypeRb, 1⟩).2).1 = 2 ∧
    ¬ ((decodeBlockType 1 (decodeBlockType 1 ⟨initBlockTypeRb, 1⟩).2).1 < 2) := by
  refine ⟨by decide, by decide, by decide⟩

/-- The run-of-zeros writer in `DecodeContextMap`:
`while (--reps) { (*context_map)[i] = 0; ++i; }` writes `count` zeros at
consecutive indices with no bound check. -/
def writeZeros (cmap : Nat → Nat) (i : Nat) : Nat → (Nat → Nat)
  | 0 => cmap
  | n + 1 => writeZeros (fun j => if j = i then 0 else cmap j) (i + 1) n

/-- The symbol-consuming fill loop of `DecodeContextMap` (lines 487-508).
Each decoded symbol is modelled as a pair `(code, extra)` where `extra`
stands for the `BrotliReadBits(br, code)` read of a run-length code; the
Huffman decode itself is abstracted into the symbol list.  `none` models the
`BrotliReadMoreInput` failure when the stream is exhausted, mirroring the
only error exit of the loop.  On completion it returns the map and the final
write index `i`. -/
def contextMapLoop (size maxRunLengthCode : Nat) :
    List (Nat × Nat) → Nat → (Nat → Nat) → Option ((Nat → Nat) × Nat)
  | [], i, cmap => if i < size then none else some (cmap, i)
  | (code, extra) :: rest, i, cmap =>
    if i < size then
      if code = 0 then
        contextMapLoop size maxRunLengthCode rest (i + 1) (fun j => if j = i then 0 else cmap j)
      else if code ≤ maxRunLengthCode then
        contextMapLoop size maxRunLengthCode rest (i + ((1 + (1 <<< code) + extra) - 1))
          (writeZeros cmap i ((1 + (1 <<< code) + extra) - 1))
      else
        contextMapLoop size maxRunLengthCode rest (i + 1)
          (fun j => if j = i then code - maxRunLengthCode else cmap j)
    else some (cmap, i)

/-- C4 (code bug): with `context_map_size = 1`, `max_run_length_prefix = 1`
and a first decoded symbol that is the run code 1 with extra bit 1, the run
emits `(1 << 1) + 1 = 3` zeros.  The code performs no overrun check: it
writes at indices 0, 1 and 2 (the latter two past the end of the size-1
map), leaves `i = 3` and returns success instead of failing with
`MalformedStream`.  Starting from a map filled with the sentinel 7, the
out-of-range writes are visible at indices 1 and 2. -/
theorem contextMapLoop_run_overruns_size :
    ((contextMapLoop 1 1 [(1, 1)] 0 (fun _ => 7)).map Prod.snd = some 3) ∧
    ((contextMapLoop 1 1 [(1, 1)] 0 (fun _ => 7)).map (fun p => p.1 1) = some 0) ∧
    ((contextMapLoop 1 1 [(1, 1)] 0 (fun _ => 7)).map (fun p => p.1 2) = some 0) ∧
    1 < 3 := by
  refine ⟨by decide, by decide, by decide, by decide⟩

/-- The symbol-assignment loop of the simple-code branch of
`ReadHuffmanCode`: `for (i = 0; i < num_symbols; ++i) code_lengths[symbols[i]] = 2`.
The `code_lengths` array is modelled as a total function after
`memset(code_lengths, 0, alphabet_size)`. -/
def simpleSetLoop (symbols : Nat → Nat) : Nat → (Nat → Nat) → (Nat → Nat)
  | 0, cl => cl
  | i + 1, cl => fun j => if j = symbols i then 2 else simpleSetLoop symbols i cl j

/-- The state of the code-length array after the symbol loop and the
unconditional `code_lengths[symbols[0]] = 1` assignment. -/
def simpleBase (numSymbols : Nat) (symbols : Nat → Nat) (j : Nat) : Nat :=
  if j = symbols 0 then 1 else simpleSetLoop symbols numSymbols (fun _ => 0) j

/-- The code-length assembly of the simple-code branch of `ReadHuffmanCode`:
zero the array, set each listed symbol to 2, set `symbols[0]` to 1, then the
`switch (num_symbols)` adjustments (cases 1 and 3 change nothing; case 2
also sets `symbols[1]` to 1; case 4 consults the tree-select bit). -/
def simpleCodeLengths (numSymbols : Nat) (symbols : Nat → Nat) (treeSelect : Bool)
    (j : Nat) : Nat :=
  if numSymbols = 2 then (if j = symbols 1 then 1 else simpleBase 2 symbols j)
  else if numSymbols = 4 then
    if treeSelect then
      (if j = symbols 3 then 3 else if j = symbols 2 then 3 else simpleBase 4 symbols j)
    else (if j = symbols 0 then 2 else simpleBase 4 symbols j)
  else simpleBase numSymbols symbols j

theorem simpleSetLoop_hit (symbols : Nat → Nat) (cl : Nat → Nat) (n i : Nat)
    (hi : i < n) : simpleSetLoop symbols n cl (symbols i) = 2 := by
  induction n with
  | zero => omega
  | succ n ih =>
    show (if symbols i = symbols n then 2 else simpleSetLoop symbols n cl (symbols i)) = 2
    by_cases hin : symbols i = symbols n
    · rw [if_pos hin]
    · rw [if_neg hin]
      exact ih (by
        rcases Nat.lt_succ_iff_lt_or_eq.1 hi with h | h
        · exact h
        · exact absurd (congrArg symbols h) hin)

theorem simpleSetLoop_miss (symbols : Nat → Nat) (cl : Nat → Nat) (n j : Nat)
    (hj : ∀ i, i < n → symbols i ≠ j) : simpleSetLoop symbols n cl j = cl j := by
  induction n with
  | zero => rfl
  | succ n ih =>
    show (if j = symbols n then 2 else simpleSetLoop symbols n cl j) = cl j
    rw [if_neg (fun he => hj n (by omega) he.symm)]
    exact ih (fun i hi => hj i (by omega))

/-- C7: a simple Huffman code with `num_symbols == 3` produces code length 1
for `symbols[0]`, length 2 for `symbols[1]` and `symbols[2]`, and length 0
for every other symbol (for pairwise distinct listed symbols, as in a valid
stream). -/
theorem simpleCodeLengths_three_symbols (symbols : Nat → Nat) (b : Bool) (j : Nat)
    (h01 : symbols 0 ≠ symbols 1) (h02 : symbols 0 ≠ symbols 2)
    (h12 : symbols 1 ≠ symbols 2) :
    simpleCodeLengths 3 symbols b (symbols 0) = 1 ∧
    simpleCodeLengths 3 symbols b (symbols 1) = 2 ∧
    simpleCodeLengths 3 symbols b (symbols 2) = 2 ∧
    (j ≠ symbols 0 → j ≠ symbols 1 → j ≠ symbols 2 → simpleCodeLengths 3 symbols b j = 0) := by
  have hbase : ∀ x, simpleCodeLengths 3 symbols b x = simpleBase 3 symbols x := by
    intro x
    unfold simpleCodeLengths
    rw [if_neg (by omega), if_neg (by omega)]
  refine ⟨?_, ?_, ?_, ?_⟩
  · rw [hbase, simpleBase, if_pos rfl]
  · rw [hbase, simpleBase, if_neg (Ne.symm h01)]
    exact simpleSetLoop_hit symbols (fun _ => 0) 3 1 (by omega)
  · rw [hbase, simpleBase, if_neg (Ne.symm h02)]
    exact simpleSetLoop_hit symbols (fun _ => 0) 3 2 (by omega)
  · intro hj0 hj1 hj2
    rw [hbase, simpleBase, if_neg hj0]
    exact simpleSetLoop_miss symbols (fun _ => 0) 3 j (by
      intro i hi
      interval_cases i
      · exact fun he => hj0 he.symm
      · exact fun he => hj1 he.symm
      · exact fun he => hj2 he.symm)

/-- Witness for `simpleCodeLengths_three_symbols` with symbols 0, 1, 2 and the
outside symbol 5. -/
theorem simpleCodeLengths_three_symbols_witness :
    (0 : Nat) ≠ 1 ∧
    simpleCodeLengths 3 (fun i => i) false 0 = 1 ∧
    simpleCodeLengths 3 (fun i => i) false 1 = 2 ∧
    simpleCodeLengths 3 (fun i => i) false 2 = 2 ∧
    simpleCodeLengths 3 (fun i => i) false 5 = 0 :=
  ⟨by decide,
    (simpleCodeLengths_three_symbols (fun i => i) false 5
      (by decide) (by decide) (by decide)).1,
    (simpleCodeLengths_three_symbols (fun i => i) false 5
      (by decide) (by decide) (by decide)).2.1,
    (simpleCodeLengths_three_symbols (fun i => i) false 5
      (by decide) (by decide) (by decide)).2.2.1,
    (simpleCodeLengths_three_symbols (fun i => i) false 5
      (by decide) (by decide) (by decide)).2.2.2 (by decide) (by decide) (by decide)⟩

/-- The mutable state threaded through the `BrotliDecompress` command loop:
the monotone output position `pos`, the ring-buffer contents (a total
function, indexed through the mask), the distance ring and its insertion
counter, the number of bytes already flushed to the output, and the two
context bytes `prev_byte1`/`prev_byte2`. -/
structure LoopState where
  pos : Nat
  ring : Nat → Nat
  distRb : Nat → Int
  distRbIdx : Nat
  written : Nat
  prev1 : Nat
  prev2 : Nat

/-- The state at the top of `BrotliDecompress`: `pos = 0`, the initial
distance ring, no output yet, zero context bytes.  (The freshly allocated
ring buffer contents are unspecified in C; the model fixes them to 0, which
no claim depends on.) -/
def initLoopState : LoopState :=
  { pos := 0, ring := fun _ => 0, distRb := initDistRb, distRbIdx := 0,
    written := 0, prev1 := 0, prev2 := 0 }

/-- Place one byte: `ringbuffer[pos & ringbuffer_mask] = b`; if the masked
position is the last ring slot, the full ring (`ringbuffer_size` bytes) is
flushed to the output; then `++pos`. -/
def putByte (ringSize b : Nat) (s : LoopState) : LoopState :=
  { s with
    ring := fun j => if j = s.pos &&& (ringSize - 1) then b else s.ring j,
    written := if s.pos &&& (ringSize - 1) = ringSize - 1 then s.written + ringSize
      else s.written,
    pos := s.pos + 1 }

/-- The insert phase (`for (j = 0; j < insert_length; ++j) ...`): each
iteration shifts `prev_byte2 ← prev_byte1 ← literal` and appends the
literal.  Exhaustion of the literal list models the per-iteration
`BrotliReadMoreInput` failure; the flag is `false` and the partial state is
returned (matching the `goto End` mid-insert). -/
def insertPhase (ringSize : Nat) : Nat → List Nat → LoopState → Bool × LoopState
  | 0, _, s => (true, s)
  | _ + 1, [], s => (false, s)
  | n + 1, b :: rest, s =>
    insertPhase ringSize n rest (putByte ringSize b { s with prev2 := s.prev1, prev1 := b })

/-- The backward-copy byte loop:
`ringbuffer[pos & mask] = ringbuffer[(pos - distance) & mask]`, flushing on
ring wrap, `copy_length` times. -/
def copyLoop (ringSize dist : Nat) : Nat → LoopState → LoopState
  | 0, s => s
  | n + 1, s =>
    copyLoop ringSize dist n
      (putByte ringSize (s.ring ((s.pos - dist) &&& (ringSize - 1))) s)

/-- Context-byte reload after a copy:
`prev_byte1 = ringbuffer[(pos - 1) & mask]; prev_byte2 = ringbuffer[(pos - 2) & mask]`. -/
def afterCopy (ringSize dist n : Nat) (s : LoopState) : LoopState :=
  { copyLoop ringSize dist n s with
    prev1 := (copyLoop ringSize dist n s).ring
      (((copyLoop ringSize dist n s).pos - 1) &&& (ringSize - 1)),
    prev2 := (copyLoop ringSize dist n s).ring
      (((copyLoop ringSize dist n s).pos - 2) &&& (ringSize - 1)) }

inductive DecodeErr where
  | unexpectedEof
  | invalidBackref

/-- One command of the command loop, with the Huffman reads abstracted into
data: `insert_length` and `copy_length` as produced by `ReadInsertAndCopy`
plus extra bits, the literal bytes decoded during the insert phase, and the
resolved `distance_code` (the value in hand after the `distance_code < 0`
branch has read from the distance stream; 0 is short code 0). -/
structure Cmd where
  insertLen : Nat
  literals : List Nat
  copyLen : Nat
  distanceCode : Nat

/-- The resolved distance of a command:
`distance = TranslateShortCodes(distance_code, dist_rb, dist_rb_idx)`. -/
def resolvedDistance (c : Cmd) (s : LoopState) : Int :=
  translateShortCodes c.distanceCode s.distRb s.distRbIdx

/-- The conditional distance-ring push
(`if (distance_code > 0) { dist_rb[dist_rb_idx & 3] = distance; ++dist_rb_idx; }`),
performed before the backward-reference checks. -/
def pushDist (c : Cmd) (s : LoopState) : LoopState :=
  { s with
    distRb := (updateDistRb c.distanceCode (resolvedDistance c s) s.distRb s.distRbIdx).1,
    distRbIdx := (updateDistRb c.distanceCode (resolvedDistance c s) s.distRb s.distRbIdx).2 }

/-- One iteration of the command-loop body (decode.c lines 809-943): the
insert phase; the `pos == meta_block_end_pos` break; distance resolution and
ring push; the `(size_t)distance > max_distance` check; the
`pos + copy_length > meta_block_end_pos` check; the copy and the
context-byte reload.  On success, the flag records whether the break was
taken; on failure the error carries the state at the `goto End`. -/
def commandStep (ringSize maxBackward metaEnd : Nat) (c : Cmd) (s : LoopState) :
    Except (DecodeErr × LoopState) (Bool × LoopState) :=
  match insertPhase ringSize c.insertLen c.literals s with
  | (false, s1) => .error (.unexpectedEof, s1)
  | (true, s1) =>
    if s1.pos = metaEnd then .ok (true, s1)
    else
      if backrefOk (resolvedDistance c s1) (pushDist c s1).pos maxBackward then
        if metaEnd < (pushDist c s1).pos + c.copyLen then
          .error (.invalidBackref, pushDist c s1)
        else
          .ok (false, afterCopy ringSize (sizeTCast (resolvedDistance c s1)) c.copyLen
            (pushDist c s1))
      else .error (.invalidBackref, pushDist c s1)

/-- The per-meta-block command loop `while (pos < meta_block_end_pos)`.
Exhaustion of the command list models the `BrotliReadMoreInput` failure at
the top of an iteration. -/
def commandLoop (ringSize maxBackward metaEnd : Nat) :
    List Cmd → LoopState → Except (DecodeErr × LoopState) LoopState
  | [], s => if s.pos < metaEnd then .error (.unexpectedEof, s) else .ok s
  | c :: rest, s =>
    if s.pos < metaEnd then
      match commandStep ringSize maxBackward metaEnd c s with
      | .error e => .error e
      | .ok (true, s1) => .ok s1
      | .ok (false, s1) => commandLoop ringSize maxBackward metaEnd rest s1
    else .ok s

def loopOk : Except (DecodeErr × LoopState) LoopState → Bool
  | .ok _ => true
  | .error _ => false

def loopPos : Except (DecodeErr × LoopState) LoopState → Option Nat
  | .ok s => some s.pos
  | .error _ => none

def loopDistRb1 : Except (DecodeErr × LoopState) LoopState → Option Int
  | .ok s => some (s.distRb 1)
  | .error _ => none

theorem putByte_pos (ringSize b : Nat) (s : LoopState) :
    (putByte ringSize b s).pos = s.pos + 1 := rfl

theorem copyLoop_pos (ringSize dist : Nat) :
    ∀ n s, (copyLoop ringSize dist n s).pos = s.pos + n := by
  intro n
  induction n with
  | zero => intro s; rfl
  | succ n ih =>
    intro s
    show (copyLoop ringSize dist n (putByte ringSize _ s)).pos = s.pos + (n + 1)
    rw [ih, putByte_pos]
    omega

theorem afterCopy_pos (ringSize dist n : Nat) (s : LoopState) :
    (afterCopy ringSize dist n s).pos = s.pos + n := by
  unfold afterCopy
  exact copyLoop_pos ringSize dist n s

theorem commandStep_ok_pos (ringSize maxBackward metaEnd : Nat) (c : Cmd) (s : LoopState) :
    ∀ brk s1, commandStep ringSize maxBackward metaEnd c s = .ok (brk, s1) →
      (brk = true ∧ s1.pos = metaEnd) ∨ (brk = false ∧ s1.pos ≤ metaEnd) := by
  intro brk s1 heq
  unfold commandStep at heq
  rcases hins : insertPhase ringSize c.insertLen c.literals s with ⟨ok1, st1⟩
  rw [hins] at heq
  cases ok1 with
  | false => exact absurd heq (by simp)
  | true =>
    dsimp only at heq
    by_cases hbrk : st1.pos = metaEnd
    · rw [if_pos hbrk] at heq
      simp only [Except.ok.injEq, Prod.mk.injEq] at heq
      exact Or.inl ⟨heq.1.symm, by rw [← heq.2]; exact hbrk⟩
    · rw [if_neg hbrk] at heq
      by_cases hok : backrefOk (resolvedDistance c st1) (pushDist c st1).pos maxBackward
      · rw [if_pos hok] at heq
        by_cases hlen : metaEnd < (pushDist c st1).pos + c.copyLen
        · rw [if_pos hlen] at heq
          exact absurd heq (by simp)
        · rw [if_neg hlen] at heq
          simp only [Except.ok.injEq, Prod.mk.injEq] at heq
          refine Or.inr ⟨heq.1.symm, ?_⟩
          rw [← heq.2, afterCopy_pos]
          have hpp : (pushDist c st1).pos = st1.pos := rfl
          omega
      · rw [if_neg hok] at heq
        exact absurd heq (by simp)

theorem commandLoop_ok_pos (ringSize maxBackward metaEnd : Nat) :
    ∀ cmds (s : LoopState), s.pos ≤ metaEnd →
      ∀ s1, commandLoop ringSize maxBackward metaEnd cmds s = .ok s1 → s1.pos = metaEnd := by
  intro cmds
  induction cmds with
  | nil =>
    intro s hle s1 heq
    unfold commandLoop at heq
    by_cases hlt : s.pos < metaEnd
    · rw [if_pos hlt] at heq
      exact absurd heq (by simp)
    · rw [if_neg hlt] at heq
      simp only [Except.ok.injEq] at heq
      rw [← heq]
      omega
  | cons c rest ih =>
    intro s hle s1 heq
    unfold commandLoop at heq
    by_cases hlt : s.pos < metaEnd
    · rw [if_pos hlt] at heq
      rcases hstep : commandStep ringSize maxBackward metaEnd c s with e | ⟨brk, st⟩
      · rw [hstep] at heq
        exact absurd heq (by simp)
      · rw [hstep] at heq
        rcases commandStep_ok_pos ringSize maxBackward metaEnd c s brk st hstep with
          ⟨hb, hp⟩ | ⟨hb, hp⟩
        · subst hb
          simp only [Except.ok.injEq] at heq
          rw [← heq]
          exact hp
        · subst hb
          exact ih st hp s1 heq
    · rw [if_neg hlt] at heq
      simp only [Except.ok.injEq] at heq
      rw [← heq]
      omega

/-- C2: whenever the per-meta-block command loop terminates without error,
the output position equals `meta_block_end_pos = pos₀ + meta_len`: exactly
`meta_len` bytes were appended during the meta-block.  This holds for every
command stream, including ones whose insert phase runs past the meta-block
end — those always fail at the `pos + copy_length > meta_block_end_pos`
check and never exit the loop successfully. -/
theorem commandLoop_ok_pos_eq_metaEnd (ringSize maxBackward metaLen : Nat)
    (cmds : List Cmd) (s : LoopState)
    (h : loopOk (commandLoop ringSize maxBackward (s.pos + metaLen) cmds s) = true) :
    loopPos (commandLoop ringSize maxBackward (s.pos + metaLen) cmds s) =
      some (s.pos + metaLen) := by
  rcases hres : commandLoop ringSize maxBackward (s.pos + metaLen) cmds s with e | s1
  · rw [hres] at h
    exact absurd h (by simp [loopOk])
  · rw [loopPos]
    rw [commandLoop_ok_pos ringSize maxBackward (s.pos + metaLen) cmds s (by omega) s1 hres]

/-- Witness for `commandLoop_ok_pos_eq_metaEnd`: a one-command stream
(insert one literal, then break at the meta-block end) on a fresh state with
`meta_len = 1`. -/
theorem commandLoop_ok_pos_eq_metaEnd_witness :
    loopOk (commandLoop 65536 65520 (initLoopState.pos + 1)
      [⟨1, [97], 2, 0⟩] initLoopState) = true ∧
    loopPos (commandLoop 65536 65520 (initLoopState.pos + 1)
      [⟨1, [97], 2, 0⟩] initLoopState) = some (initLoopState.pos + 1) :=
  ⟨by decide, commandLoop_ok_pos_eq_metaEnd 65536 65520 1 [⟨1, [97], 2, 0⟩] initLoopState
    (by decide)⟩

/-- C1 counterexample: the claim says a resolved distance `d ≤ 0`, in
particular `d = 0`, makes the decode fail before the copy.  Concretely: with
`meta_len = 5`, the first command (insert one literal, copy 2 with direct
distance code 16, i.e. distance 1) pushes 1 into the distance ring; the
short code 4 of the second command then resolves to `dist_rb[...] - 1 = 0`.  The
guard `(size_t)0 > max_distance` is false, so the zero-distance copy is
performed and the whole meta-block decodes successfully (`pos = 5`), with
the pushed 0 visible in the final distance ring.  The guard verdict
`backrefOk 0 3 65520 = true` exhibits the accepting check itself, and
`translateShortCodes` produces that 0 from a ring holding 1. -/
theorem zeroDistanceCopySucceeds :
    loopOk (commandLoop 65536 65520 5
      [⟨1, [97], 2, 16⟩, ⟨0, [], 2, 4⟩] initLoopState) = true ∧
    loopPos (commandLoop 65536 65520 5
      [⟨1, [97], 2, 16⟩, ⟨0, [], 2, 4⟩] initLoopState) = some 5 ∧
    loopDistRb1 (commandLoop 65536 65520 5
      [⟨1, [97], 2, 16⟩, ⟨0, [], 2, 4⟩] initLoopState) = some 0 ∧
    translateShortCodes 4 (fun j => if j = 0 then 1 else initDistRb j) 1 = 0 ∧
    backrefOk 0 3 65520 = true ∧
    ¬ (0 < (0 : Int)) := by
  refine ⟨by decide, by decide, by decide, by decide, by decide, by decide⟩

/-- One entry of the outer meta-block loop, abstracting the meta-block
header: `headerFail` stands for any header-stage failure (`goto End` with
`ok = 0` from a failed `BrotliReadMoreInput`, Huffman code, or context map,
before the command loop starts), and `block len cmds` stands for a
meta-block of `meta_block_len = len` whose command stream decodes to `cmds`.
The end of the list is the `input_end` meta-block that stops the loop. -/
inductive MetaBlock where
  | headerFail
  | block (len : Nat) (cmds : List Cmd)

/-- The outer loop `while (!input_end && ok)` of `BrotliDecompress`: run
meta-blocks until the list ends (`input_end`), a header fails, or the
command loop fails; a `meta_block_len` of 0 (only produced together with
`input_end`) stops with success.  Returns the `ok` flag and the final
state. -/
def metaBlockLoop (ringSize maxBackward : Nat) :
    List MetaBlock → LoopState → Bool × LoopState
  | [], s => (true, s)
  | .headerFail :: _, s => (false, s)
  | .block len cmds :: rest, s =>
    if len = 0 then (true, s)
    else
      match commandLoop ringSize maxBackward (s.pos + len) cmds s with
      | .ok s1 => metaBlockLoop ringSize maxBackward rest s1
      | .error (_, s1) => (false, s1)

/-- The total number of bytes handed to the output once `BrotliDecompress`
returns: the ring-wrap flushes performed during decoding plus the final
`BrotliWrite(output, ringbuffer, pos & ringbuffer_mask)` executed on every
exit path (line 956), success and failure alike. -/
def totalOutput (ringSize : Nat) (r : Bool × LoopState) : Nat :=
  r.2.written + (r.2.pos &&& (ringSize - 1))

/-- The flush bookkeeping invariant: everything before the last incomplete
ring lap has already been written to the output. -/
def FlushInv (ringSize : Nat) (s : LoopState) : Prop :=
  s.written + s.pos % ringSize = s.pos

theorem putByte_inv (wb b : Nat) (s : LoopState) (h : FlushInv (2 ^ wb) s) :
    FlushInv (2 ^ wb) (putByte (2 ^ wb) b s) := by
  have hrs : 0 < 2 ^ wb := Nat.pos_pow_of_pos wb (by omega)
  unfold FlushInv putByte at *
  dsimp only
  rw [Nat.and_pow_two_sub_one_eq_mod]
  have hlt : s.pos % 2 ^ wb < 2 ^ wb := Nat.mod_lt _ hrs
  have hdm := Nat.div_add_mod s.pos (2 ^ wb)
  by_cases hc : s.pos % 2 ^ wb = 2 ^ wb - 1
  · rw [if_pos hc]
    have h3 : s.pos + 1 = 2 ^ wb * (s.pos / 2 ^ wb) + 2 ^ wb := by omega
    rw [h3, Nat.mul_add_mod, Nat.mod_self]
    omega
  · rw [if_neg hc]
    have h3 : s.pos + 1 = 2 ^ wb * (s.pos / 2 ^ wb) + (s.pos % 2 ^ wb + 1) := by omega
    rw [h3, Nat.mul_add_mod, Nat.mod_eq_of_lt (by omega)]
    omega

theorem insertPhase_inv (wb : Nat) :
    ∀ n lits (s : LoopState), FlushInv (2 ^ wb) s →
      FlushInv (2 ^ wb) (insertPhase (2 ^ wb) n lits s).2 := by
  intro n
  induction n with
  | zero => intro lits s h; exact h
  | succ n ih =>
    intro lits s h
    cases lits with
    | nil => exact h
    | cons b rest => exact ih rest _ (putByte_inv wb b _ h)

theorem copyLoop_inv (wb dist : Nat) :
    ∀ n (s : LoopState), FlushInv (2 ^ wb) s →
      FlushInv (2 ^ wb) (copyLoop (2 ^ wb) dist n s) := by
  intro n
  induction n with
  | zero => intro s h; exact h
  | succ n ih => intro s h; exact ih _ (putByte_inv wb _ _ h)

theorem afterCopy_inv (wb dist n : Nat) (s : LoopState) (h : FlushInv (2 ^ wb) s) :
    FlushInv (2 ^ wb) (afterCopy (2 ^ wb) dist n s) := by
  unfold afterCopy
  exact copyLoop_inv wb dist n s h

theorem pushDist_inv (wb : Nat) (c : Cmd) (s : LoopState) (h : FlushInv (2 ^ wb) s) :
    FlushInv (2 ^ wb) (pushDist c s) := h

/-- The state carried by either outcome of a command step. -/
def stepState : Except (DecodeErr × LoopState) (Bool × LoopState) → LoopState
  | .ok (_, s) => s
  | .error (_, s) => s

theorem commandStep_inv (wb maxBackward metaEnd : Nat) (c : Cmd) (s : LoopState)
    (h : FlushInv (2 ^ wb) s) :
    FlushInv (2 ^ wb) (stepState (commandStep (2 ^ wb) maxBackward metaEnd c s)) := by
  unfold commandStep
  rcases hins : insertPhase (2 ^ wb) c.insertLen c.literals s with ⟨ok1, st1⟩
  have hinv1 : FlushInv (2 ^ wb) st1 := by
    have := insertPhase_inv wb c.insertLen c.literals s h
    rw [hins] at this
    exact this
  cases ok1 with
  | false => exact hinv1
  | true =>
    dsimp only
    by_cases hbrk : st1.pos = metaEnd
    · rw [if_pos hbrk]
      exact hinv1
    · rw [if_neg hbrk]
      by_cases hok : backrefOk (resolvedDistance c st1) (pushDist c st1).pos maxBackward
      · rw [if_pos hok]
        by_cases hlen : metaEnd < (pushDist c st1).pos + c.copyLen
        · rw [if_pos hlen]
          exact pushDist_inv wb c st1 hinv1
        · rw [if_neg hlen]
          exact afterCopy_inv wb _ _ _ (pushDist_inv wb c st1 hinv1)
      · rw [if_neg hok]
        exact pushDist_inv wb c st1 hinv1

/-- The state carried by either outcome of the command loop. -/
def loopState : Except (DecodeErr × LoopState) LoopState → LoopState
  | .ok s => s
  | .error (_, s) => s

theorem commandLoop_inv (wb maxBackward metaEnd : Nat) :
    ∀ cmds (s : LoopState), FlushInv (2 ^ wb) s →
      FlushInv (2 ^ wb) (loopState (commandLoop (2 ^ wb) maxBackward metaEnd cmds s)) := by
  intro cmds
  induction cmds with
  | nil =>
    intro s h
    unfold commandLoop
    by_cases hlt : s.pos < metaEnd
    · rw [if_pos hlt]; exact h
    · rw [if_neg hlt]; exact h
  | cons c rest ih =>
    intro s h
    unfold commandLoop
    by_cases hlt : s.pos < metaEnd
    · rw [if_pos hlt]
      have hstepinv := commandStep_inv wb maxBackward metaEnd c s h
      rcases hstep : commandStep (2 ^ wb) maxBackward metaEnd c s with ⟨e, se⟩ | ⟨brk, st⟩
      · rw [hstep] at hstepinv
        exact hstepinv
      · rw [hstep] at hstepinv
        cases brk with
        | true => exact hstepinv
        | false => exact ih st hstepinv
    · rw [if_neg hlt]
      exact h

theorem metaBlockLoop_inv (wb maxBackward : Nat) :
    ∀ mbs (s : LoopState), FlushInv (2 ^ wb) s →
      FlushInv (2 ^ wb) (metaBlockLoop (2 ^ wb) maxBackward mbs s).2 := by
  intro mbs
  induction mbs with
  | nil => intro s h; exact h
  | cons mb rest ih =>
    intro s h
    cases mb with
    | headerFail => exact h
    | block len cmds =>
      unfold metaBlockLoop
      by_cases hz : len = 0
      · rw [if_pos hz]
        exact h
      · rw [if_neg hz]
        have hloopinv := commandLoop_inv wb maxBackward (s.pos + len) cmds s h
        rcases hloop : commandLoop (2 ^ wb) maxBackward (s.pos + len) cmds s with ⟨e, se⟩ | s1
        · rw [hloop] at hloopinv
          exact hloopinv
        · rw [hloop] at hloopinv
          exact ih s1 hloopinv

/-- C9: on every exit of the decoder — success, header failure, failed
backward reference, or unexpected end of input in any meta-block — the
bytes flushed during decoding plus the final
`BrotliWrite(output, ringbuffer, pos & ringbuffer_mask)` account for every
byte produced: the total output equals the final `pos`.  In particular a
failed decode still emits all bytes produced before the error. -/
theorem finalFlush_completes_output (wb maxBackward : Nat) (mbs : List MetaBlock) :
    totalOutput (2 ^ wb) (metaBlockLoop (2 ^ wb) maxBackward mbs initLoopState) =
      (metaBlockLoop (2 ^ wb) maxBackward mbs initLoopState).2.pos := by
  have hinit : FlushInv (2 ^ wb) initLoopState := by
    unfold FlushInv initLoopState
    simp
  have h := metaBlockLoop_inv wb maxBackward mbs initLoopState hinit
  unfold totalOutput
  rw [Nat.and_pow_two_sub_one_eq_mod]
  exact h

end Brotli
